import Mathlib

/-!
Verification development for the namespace-proxy repository.

The Go sources are shallowly embedded:
  * Go strings become `List Char` (`Str`),
  * Go `map[string]string` built by repeated assignment becomes an association
    list with replace-on-insert semantics (`mapInsert` / `mapLookup`),
  * Go `map[string]bool` tenant sets become `List Str` with membership,
  * fallible functions return `Except`.

The PromQL expression type is embedded only as deep as the enforcer inspects
it: vector selectors carrying label matchers are the leaves, every other node
(function call, binary operation, literal) is transparent, exactly as
`parser.Inspect` / `injectproxy.EnforceNode` treat them.
-/

namespace NamespaceProxy

/-- Go strings are modelled as lists of characters. -/
abbrev Str := List Char

/-- Matcher types of prometheus `model/labels`: `=`, `!=`, `=~`, `!~`. -/
inductive MatchType where
  | matchEqual
  | matchNotEqual
  | matchRegexp
  | matchNotRegexp
deriving DecidableEq

/-- A label matcher (`labels.Matcher`): a name, a type and a value. -/
structure Matcher where
  name : Str
  mtype : MatchType
  value : Str
deriving DecidableEq

/-- PromQL expressions, embedded only as deep as the enforcer inspects them:
vector selectors are the leaves that carry label matchers; calls, binary
operations and literals are transparent inner nodes. -/
inductive Expr where
  | vector (metric : Str) (matchers : List Matcher)
  | call (fn : Str) (arg : Expr)
  | binary (op : Str) (lhs rhs : Expr)
  | lit (text : Str)
deriving DecidableEq

deriving instance DecidableEq for Except

/-- Go map assignment `m[k] = v`: replaces the binding when the key is
present, otherwise appends it. -/
def mapInsert (m : List (Str × Str)) (k v : Str) : List (Str × Str) :=
  match m with
  | [] => [(k, v)]
  | (k', v') :: rest =>
      if k' = k then (k, v) :: rest else (k', v') :: mapInsert rest k v

/-- Go map read `v, ok := m[k]`. -/
def mapLookup (m : List (Str × Str)) (k : Str) : Option Str :=
  match m with
  | [] => none
  | (k', v') :: rest => if k' = k then some v' else mapLookup rest k

/-- Go map read `m[k]` returning the zero value `""` for a missing key. -/
def mapLookupZ (m : List (Str × Str)) (k : Str) : Str :=
  (mapLookup m k).getD []

/-- Lexicographic comparison of character lists (used by the spec-modelled
sort of the tenant set). -/
def lexLe : Str → Str → Bool
  | [], _ => true
  | _ :: _, [] => false
  | a :: as, b :: bs => if a = b then lexLe as bs else decide (a < b)

/-- Insertion into a sorted list, ordered by `lexLe`. -/
def insertSorted (x : Str) : List Str → List Str
  | [] => [x]
  | y :: ys => if lexLe x y then x :: y :: ys else y :: insertSorted x ys

/-- Insertion sort of a list of strings by `lexLe`. -/
def sortStrs : List Str → List Str
  | [] => []
  | x :: xs => insertSorted x (sortStrs xs)

/-- Modelled from the spec: `MapKeysToArray` (a helper of this repository not
under `src/`) turns the tenant set `map[string]bool` into a slice of its keys;
the spec requires the rewriter to sort members lexicographically when
composing regex alternations so rewrites are reproducible, so the keys are
returned in sorted order. -/
def MapKeysToArray (tl : List Str) : List Str :=
  sortStrs tl

/-- Pre-order collection of all label matchers of all vector selectors, in the
order `parser.Inspect` visits them (src/enforcer_promql.go:48-55). -/
def collectMatchers : Expr → List Matcher
  | .vector _ ms => ms
  | .call _ arg => collectMatchers arg
  | .binary _ lhs rhs => collectMatchers lhs ++ collectMatchers rhs
  | .lit _ => []

/-- Embeds `extractLabelsAndValues` (src/enforcer_promql.go:46-57): walk the
AST and for every matcher of every vector selector do `l[name] = value`
(later assignments overwrite earlier ones). -/
def extractLabelsAndValues (e : Expr) : List (Str × Str) :=
  (collectMatchers e).foldl (fun l m => mapInsert l m.name m.value) []

/-- Embeds `checkLabels` (src/enforcer_promql.go:86-95): split the tenant
label value on `|` and scan for the first piece that is not a key of the
tenant set; return `(false, [offender])` at the first miss, else
`(true, pieces)`. -/
def checkLabels (tenantLabel : Str) (l : List (Str × Str)) (tl : List Str) :
    Bool × List Str :=
  let qls := (mapLookupZ l tenantLabel).splitOn '|'
  match qls.find? (fun ql => decide (ql ∉ tl)) with
  | some ql => (false, [ql])
  | none => (true, qls)

/-- Error text of src/enforcer_promql.go:63. -/
def notAllowedMsg (q : Str) : Str :=
  ("user not allowed with namespace ".toList) ++ q

/-- Embeds `enforceLabels` (src/enforcer_promql.go:59-69): when the query
carries a matcher on the tenant label, subset-check its value, else use all
keys of the tenant set. -/
def enforceLabels (tenantLabel : Str) (l : List (Str × Str)) (tl : List Str) :
    Except Str (List Str) :=
  match mapLookup l tenantLabel with
  | some _ =>
      match checkLabels tenantLabel l tl with
      | (true, tenantLabels) => .ok tenantLabels
      | (false, tenantLabels) => .error (notAllowedMsg (tenantLabels.headD []))
  | none => .ok (MapKeysToArray tl)

/-- Embeds `createEnforcer` (src/enforcer_promql.go:71-84): regex matcher for
more than one tenant, equality matcher otherwise; the value is the members
joined with `|` (Go `strings.Join`). -/
def createEnforcer (tenantLabel : Str) (tenantLabels : List Str) : Matcher :=
  { name := tenantLabel
    mtype := if tenantLabels.length > 1 then .matchRegexp else .matchEqual
    value := List.intercalate ['|'] tenantLabels }

/-- Error message stand-in for prom-label-proxy's IllegalLabelMatcherError
(its exact text plays no role in any claim). -/
def illegalMatcherMsg : Str :=
  ("label matcher value conflicts with injected value".toList)

/-- Modelled dependency: `injectproxy.Enforcer.EnforceMatchers` of
prom-label-proxy, as constructed by `createEnforcer`
(src/enforcer_promql.go:79, `NewEnforcer(true, matcher)`, i.e. with
`errorOnReplace = true` and a single matcher `m`): targets whose name differs
from `m.name` are kept in order; a target with `m`'s name must be equal to `m`
(same type and value, compared via `Matcher.String()`), otherwise the call
errors; finally `m` is appended. -/
def enforceMatchers (m : Matcher) : List Matcher → Except Str (List Matcher)
  | [] => .ok [m]
  | t :: ts =>
      if t.name = m.name then
        if t = m then enforceMatchers m ts
        else .error illegalMatcherMsg
      else
        match enforceMatchers m ts with
        | .ok res => .ok (t :: res)
        | .error err => .error err

/-- Modelled dependency: `injectproxy.Enforcer.EnforceNode` of
prom-label-proxy: recursively apply `enforceMatchers` to the matcher list of
every vector selector, propagating the first error. -/
def enforceNode (m : Matcher) : Expr → Except Str Expr
  | .vector metric ms =>
      match enforceMatchers m ms with
      | .ok ms' => .ok (.vector metric ms')
      | .error err => .error err
  | .call fn arg =>
      match enforceNode m arg with
      | .ok arg' => .ok (.call fn arg')
      | .error err => .error err
  | .binary op lhs rhs =>
      match enforceNode m lhs with
      | .error err => .error err
      | .ok lhs' =>
          match enforceNode m rhs with
          | .error err => .error err
          | .ok rhs' => .ok (.binary op lhs' rhs')
  | .lit s => .ok (.lit s)

/-- Embeds `promqlEnforcer` (src/enforcer_promql.go:13-44) at the AST level
(the parse step of line 15 produces the input `e`; printing is
`printExpr`): extract the label map, enforce the tenant labels, build the
enforcement matcher and inject it at every vector selector. -/
def promqlEnforcer (tenantLabel : Str) (e : Expr) (tl : List Str) :
    Except Str Expr :=
  match enforceLabels tenantLabel (extractLabelsAndValues e) tl with
  | .error err => .error err
  | .ok tenantLabels => enforceNode (createEnforcer tenantLabel tenantLabels) e

/-- Printing of a matcher type. -/
def printMatchType : MatchType → Str
  | .matchEqual => ['=']
  | .matchNotEqual => ['!', '=']
  | .matchRegexp => ['=', '~']
  | .matchNotRegexp => ['!', '~']

/-- Printing of a matcher, `name<op>"value"`. -/
def printMatcher (m : Matcher) : Str :=
  m.name ++ printMatchType m.mtype ++ ['"'] ++ m.value ++ ['"']

/-- Printing of a comma-separated matcher list. -/
def printMatcherList : List Matcher → Str
  | [] => []
  | [m] => printMatcher m
  | m :: ms => printMatcher m ++ [','] ++ printMatcherList ms

/-- Printing of an expression (the `expr.String()` of
src/enforcer_promql.go:43). -/
def printExpr : Expr → Str
  | .vector metric [] => metric
  | .vector metric ms =>
      metric ++ ['\x7b'] ++ printMatcherList ms ++ ['\x7d']
  | .call fn arg => fn ++ ['('] ++ printExpr arg ++ [')']
  | .binary op lhs rhs =>
      printExpr lhs ++ [' '] ++ op ++ [' '] ++ printExpr rhs
  | .lit s => s

/-- The string-to-string rewrite: `promqlEnforcer` followed by printing
(src/enforcer_promql.go:43, `return expr.String(), nil`). -/
def promqlEnforcerStr (tenantLabel : Str) (e : Expr) (tl : List Str) :
    Except Str Str :=
  match promqlEnforcer tenantLabel e tl with
  | .ok e' => .ok (printExpr e')
  | .error err => .error err

/-- The enforcer variant a route handler uses. -/
inductive EnforcerKind where
  | logql
  | promql
deriving DecidableEq

/-- The upstream a route handler forwards to. -/
inductive UpstreamKind where
  | loki
  | thanos
deriving DecidableEq

/-- The static wiring of one route handler: which enforcer rewrites the query
and which upstream receives the forwarded request. -/
structure Handler where
  enf : EnforcerKind
  upstream : UpstreamKind
deriving DecidableEq

/-- Embeds the `lokiRouter` handler of `NewRoutes` (src/routes.go:67-77):
the request is wrapped with `LogQLEnforcer{}` and forwarded with
`req.callUpstream(thanosUrl, Cfg.Thanos.UseMutualTLS)`. -/
def lokiRouterHandler : Handler :=
  { enf := .logql, upstream := .thanos }

/-- Embeds the `thanosRouter` handler of `NewRoutes` (src/routes.go:79-89):
the request is wrapped with `PromQLRequest{}` and forwarded with
`req.callUpstream(lokiUrl, Cfg.Loki.UseMutualTLS)`. -/
def thanosRouterHandler : Handler :=
  { enf := .promql, upstream := .loki }

/-- Embeds the subtree dispatch of `NewRoutes` (src/routes.go:59-60): the
`lokiRouter` subrouter matches paths with the `/loki` path-prefix, the
`thanosRouter` subrouter (empty prefix) matches everything else. -/
def routeFor (path : Str) : Handler :=
  if List.isPrefixOf ("/loki".toList) path then lokiRouterHandler
  else thanosRouterHandler

/-- What the `configureProxy` handler (src/main.go:71-176) does with one
request, up to and including the response it writes. -/
inductive Outcome where
  | response (status : Nat) (body : Str)
  | panicked
deriving DecidableEq

/-- The upstream round trip as the handler observes it
(`http.DefaultClient.Do`, src/main.go:151): an error carrying its text, or a
response with a status code, headers and a body. -/
structure UpstreamResponse where
  status : Nat
  headers : List (Str × Str)
  body : Str
deriving DecidableEq

/-- Embeds the response-determining control flow of `configureProxy`
(src/main.go:71-176).  Inputs: the request's Authorization header value, the
verdict of the JWT collaborator on the extracted token (`token.Valid`,
src/main.go:85-89), and the result of the upstream round trip.  In order:
an empty Authorization header is answered with `http.StatusForbidden` (403)
and "No Authorization header found" (lines 75-80); the bearer is sliced as
`header[7:]` (line 83), which panics when the header is shorter than 7
characters; an invalid token is answered with `http.StatusForbidden` (403)
and "error while parsing token" (lines 89-94); a failed round trip is
answered with `http.StatusInternalServerError` (500) and the error text
(lines 151-158); otherwise the handler writes `http.StatusOK` (200) and the
upstream body only — the upstream status and headers are dropped
(lines 160-167). -/
def configureProxy (authHeader : Str) (tokenValid : Bool)
    (upstream : Except Str UpstreamResponse) : Outcome :=
  if authHeader = [] then
    .response 403 ("No Authorization header found".toList)
  else if authHeader.length < 7 then
    .panicked
  else if !tokenValid then
    .response 403 ("error while parsing token".toList)
  else
    match upstream with
    | .error err => .response 500 err
    | .ok resp => .response 200 resp.body

/-- Result of the per-request enforcement pipeline: an HTTP rejection, or a
rewritten query to forward upstream. -/
inductive PipelineResult where
  | rejected (status : Nat) (body : Str)
  | forwarded (query : Str)
deriving DecidableEq

/-- Modelled from the spec: the pipeline step (the `Request.enforce` method
called from src/routes.go:69 and 81, not under `src/`) that runs after tenant
resolution — an empty TenantSet is rejected with 403 "no tenants" before any
rewriting; otherwise the query is rewritten by the enforcer, an enforcer
error rejects the request with 403, and only a successful rewrite is
forwarded. -/
def pipelineEnforce (tenantLabel : Str) (e : Expr) (tl : List Str) :
    PipelineResult :=
  if tl.isEmpty then .rejected 403 ("no tenants".toList)
  else
    match promqlEnforcerStr tenantLabel e tl with
    | .error err => .rejected 403 err
    | .ok q => .forwarded q

/-- Does the expression contain a vector selector? -/
def hasVector : Expr → Bool
  | .vector _ _ => true
  | .call _ arg => hasVector arg
  | .binary _ lhs rhs => hasVector lhs || hasVector rhs
  | .lit _ => false

/-- Value of the last matcher named `k` in a list, if any. -/
def lastVal (k : Str) : List Matcher → Option Str
  | [] => none
  | x :: xs =>
      match lastVal k xs with
      | some v => some v
      | none => if x.name = k then some x.value else none

/-- Replace every matcher's type by `f` of it, leaving names and values. -/
def setMatcherTypes (f : MatchType → MatchType) : Expr → Expr
  | .vector metric ms =>
      .vector metric (ms.map fun m => { m with mtype := f m.mtype })
  | .call fn arg => .call fn (setMatcherTypes f arg)
  | .binary op lhs rhs =>
      .binary op (setMatcherTypes f lhs) (setMatcherTypes f rhs)
  | .lit s => .lit s

/-- An expression every vector selector of which carries the enforcement
matcher `m` last, preceded only by matchers with other names. -/
def Enforced (m : Matcher) : Expr → Prop
  | .vector _ ms => ∃ ts, ms = ts ++ [m] ∧ ∀ t ∈ ts, t.name ≠ m.name
  | .call _ arg => Enforced m arg
  | .binary _ lhs rhs => Enforced m lhs ∧ Enforced m rhs
  | .lit _ => True

/-- A concrete tenant label used in concrete instances. -/
def nsLbl : Str := "namespace".toList

/-- A concrete metric name used in concrete instances. -/
def upMetric : Str := "up".toList

/-- A concrete tenant id. -/
def tenA : Str := "a".toList

/-- A concrete tenant id. -/
def tenB : Str := "b".toList

/-- The concrete matcher value a|b. -/
def valAB : Str := "a|b".toList

/-- The concrete matcher value b|a. -/
def valBA : Str := "b|a".toList

theorem mapLookup_mapInsert (m : List (Str × Str)) (k v k' : Str) :
    mapLookup (mapInsert m k v) k' =
      if k = k' then some v else mapLookup m k' := by
  induction m with
  | nil => simp [mapInsert, mapLookup]
  | cons p rest ih =>
      obtain ⟨pk, pv⟩ := p
      by_cases hpk : pk = k
      · subst hpk
        by_cases hk : pk = k'
        · simp [mapInsert, mapLookup, hk]
        · simp [mapInsert, mapLookup, hk]
      · by_cases hk : k = k'
        · subst hk
          simp [mapInsert, mapLookup, hpk, ih]
        · by_cases hpk' : pk = k'
          · have hkk : ¬k' = k := fun h => hk h.symm
            simp [mapInsert, mapLookup, hpk, hpk', hk, hkk]
          · simp [mapInsert, mapLookup, hpk, hpk', hk, ih]

theorem mapLookup_foldl_insert (k : Str) (ms : List Matcher) :
    ∀ acc, mapLookup
        (ms.foldl (fun l m => mapInsert l m.name m.value) acc) k =
      (lastVal k ms).or (mapLookup acc k) := by
  induction ms with
  | nil => intro acc; simp [lastVal]
  | cons x xs ih =>
      intro acc
      simp only [List.foldl_cons]
      rw [ih]
      simp only [lastVal]
      cases h : lastVal k xs with
      | some v => simp [h]
      | none =>
          simp only [Option.none_or]
          rw [mapLookup_mapInsert]
          by_cases hx : x.name = k <;> simp [hx]

theorem mapLookup_extract (e : Expr) (k : Str) :
    mapLookup (extractLabelsAndValues e) k = lastVal k (collectMatchers e) := by
  unfold extractLabelsAndValues
  rw [mapLookup_foldl_insert]
  simp [mapLookup]

theorem lastVal_eq_find?_reverse (k : Str) (ms : List Matcher) :
    lastVal k ms =
      (ms.reverse.find? (fun x => decide (x.name = k))).map Matcher.value := by
  induction ms with
  | nil => rfl
  | cons x xs ih =>
      simp only [lastVal, List.reverse_cons, List.find?_append, ih]
      cases h : xs.reverse.find? (fun x => decide (x.name = k)) with
      | some y => simp
      | none =>
          by_cases hx : x.name = k <;> simp [List.find?, hx]

theorem lastVal_eq_none {k : Str} : ∀ {ms : List Matcher},
    (∀ x ∈ ms, x.name ≠ k) → lastVal k ms = none := by
  intro ms
  induction ms with
  | nil => intro _; rfl
  | cons x xs ih =>
      intro h
      simp only [lastVal, ih fun y hy => h y (List.mem_cons_of_mem _ hy)]
      simp [h x (List.mem_cons_self x xs)]

theorem lastVal_eq_some {k v : Str} : ∀ {ms : List Matcher},
    (∀ x ∈ ms, x.name = k → x.value = v) → (∃ x ∈ ms, x.name = k) →
    lastVal k ms = some v := by
  intro ms
  induction ms with
  | nil => rintro _ ⟨x, hx, _⟩; cases hx
  | cons x xs ih =>
      rintro hall ⟨x₀, hx₀, hn₀⟩
      by_cases hxs : ∃ y ∈ xs, y.name = k
      · have := ih (fun y hy => hall y (List.mem_cons_of_mem _ hy)) hxs
        simp only [lastVal, this]
      · have hnone : lastVal k xs = none := by
          refine lastVal_eq_none fun y hy hk => hxs ⟨y, hy, hk⟩
        have hxk : x.name = k := by
          cases List.mem_cons.mp hx₀ with
          | inl h => rw [← h]; exact hn₀
          | inr h => exact absurd ⟨x₀, h, hn₀⟩ hxs
        have hxv : x.value = v := hall x (List.mem_cons_self x xs) hxk
        simp only [lastVal, hnone]
        simp [hxk, hxv]

theorem mem_insertSorted (x y : Str) (l : List Str) :
    y ∈ insertSorted x l ↔ y = x ∨ y ∈ l := by
  induction l with
  | nil => simp [insertSorted]
  | cons a as ih =>
      simp only [insertSorted]
      split
      · simp
      · simp only [List.mem_cons, ih]
        tauto

theorem mem_sortStrs (y : Str) (l : List Str) : y ∈ sortStrs l ↔ y ∈ l := by
  induction l with
  | nil => simp [sortStrs]
  | cons a as ih => simp [sortStrs, mem_insertSorted, ih]

theorem insertSorted_ne_nil (x : Str) (l : List Str) :
    insertSorted x l ≠ [] := by
  cases l with
  | nil => simp [insertSorted]
  | cons a as =>
      simp only [insertSorted]
      split <;> simp

theorem sortStrs_ne_nil {l : List Str} (h : l ≠ []) : sortStrs l ≠ [] := by
  cases l with
  | nil => exact absurd rfl h
  | cons a as => simpa [sortStrs] using insertSorted_ne_nil a (sortStrs as)

theorem splitOn_ne_nil (a : Char) (xs : Str) : xs.splitOn a ≠ [] := by
  simp only [List.splitOn]
  exact List.splitOnP_ne_nil _ xs

theorem enforceMatchers_ok_shape {m : Matcher} : ∀ {ts rs : List Matcher},
    enforceMatchers m ts = .ok rs →
    ∃ ts', rs = ts' ++ [m] ∧ ∀ t ∈ ts', t.name ≠ m.name := by
  intro ts
  induction ts with
  | nil =>
      intro rs h
      simp only [enforceMatchers, Except.ok.injEq] at h
      exact ⟨[], h.symm, by simp⟩
  | cons t ts ih =>
      intro rs h
      simp only [enforceMatchers] at h
      by_cases h1 : t.name = m.name
      · rw [if_pos h1] at h
        by_cases h2 : t = m
        · rw [if_pos h2] at h
          exact ih h
        · rw [if_neg h2] at h
          cases h
      · rw [if_neg h1] at h
        cases hrec : enforceMatchers m ts with
        | ok res =>
            rw [hrec] at h
            simp only [Except.ok.injEq] at h
            obtain ⟨ts', hres, hname⟩ := ih hrec
            refine ⟨t :: ts', ?_, ?_⟩
            · rw [← h, hres]; rfl
            · intro x hx
              cases List.mem_cons.mp hx with
              | inl hxe => rw [hxe]; exact h1
              | inr hxm => exact hname x hxm
        | error err => rw [hrec] at h; cases h

theorem enforceMatchers_append_self {m : Matcher} : ∀ {ts : List Matcher},
    (∀ t ∈ ts, t.name ≠ m.name) →
    enforceMatchers m (ts ++ [m]) = .ok (ts ++ [m]) := by
  intro ts
  induction ts with
  | nil => simp [enforceMatchers]
  | cons t ts ih =>
      intro h
      have ht := h t (List.mem_cons_self t ts)
      simp only [List.cons_append, enforceMatchers, if_neg ht]
      rw [show (ts.append [m]) = ts ++ [m] from rfl,
        ih fun x hx => h x (List.mem_cons_of_mem _ hx)]

theorem enforceMatchers_ok_of_compat {m : Matcher} : ∀ {ts : List Matcher},
    (∀ t ∈ ts, t.name = m.name → t = m) →
    ∃ rs, enforceMatchers m ts = .ok rs := by
  intro ts
  induction ts with
  | nil => exact fun _ => ⟨[m], rfl⟩
  | cons t ts ih =>
      intro h
      obtain ⟨rs, hrs⟩ := ih fun x hx => h x (List.mem_cons_of_mem _ hx)
      by_cases h1 : t.name = m.name
      · refine ⟨rs, ?_⟩
        simp only [enforceMatchers, if_pos h1,
          if_pos (h t (List.mem_cons_self t ts) h1)]
        exact hrs
      · refine ⟨t :: rs, ?_⟩
        simp only [enforceMatchers, if_neg h1, hrs]

theorem enforceNode_ok_enforced {m : Matcher} : ∀ {e e' : Expr},
    enforceNode m e = .ok e' → Enforced m e' := by
  intro e
  induction e with
  | vector metric ms =>
      intro e' h
      simp only [enforceNode] at h
      cases hrec : enforceMatchers m ms with
      | ok rs =>
          rw [hrec] at h
          simp only [Except.ok.injEq] at h
          obtain ⟨ts', hres, hname⟩ := enforceMatchers_ok_shape hrec
          rw [← h]
          exact ⟨ts', hres, hname⟩
      | error err => rw [hrec] at h; cases h
  | call fn arg ih =>
      intro e' h
      simp only [enforceNode] at h
      cases hrec : enforceNode m arg with
      | ok arg' =>
          rw [hrec] at h
          simp only [Except.ok.injEq] at h
          rw [← h]
          have h2 : Enforced m arg' := ih hrec
          exact h2
      | error err => rw [hrec] at h; cases h
  | binary op lhs rhs ihl ihr =>
      intro e' h
      simp only [enforceNode] at h
      cases hl : enforceNode m lhs with
      | ok lhs' =>
          rw [hl] at h
          cases hr : enforceNode m rhs with
          | ok rhs' =>
              rw [hr] at h
              simp only [Except.ok.injEq] at h
              rw [← h]
              have h2l : Enforced m lhs' := ihl hl
              have h2r : Enforced m rhs' := ihr hr
              exact ⟨h2l, h2r⟩
          | error err => rw [hr] at h; cases h
      | error err => rw [hl] at h; cases h
  | lit s =>
      intro e' h
      simp only [enforceNode, Except.ok.injEq] at h
      rw [← h]
      trivial

theorem enforceNode_of_enforced {m : Matcher} : ∀ {e : Expr},
    Enforced m e → enforceNode m e = .ok e := by
  intro e
  induction e with
  | vector metric ms =>
      rintro ⟨ts, hms, hname⟩
      simp only [enforceNode, hms, enforceMatchers_append_self hname]
  | call fn arg ih =>
      intro h
      simp only [enforceNode, ih h]
  | binary op lhs rhs ihl ihr =>
      rintro ⟨hl, hr⟩
      simp only [enforceNode, ihl hl, ihr hr]
  | lit s => intro _; rfl

theorem enforced_collect {m : Matcher} : ∀ {e : Expr},
    Enforced m e → ∀ x ∈ collectMatchers e, x.name = m.name → x = m := by
  intro e
  induction e with
  | vector metric ms =>
      rintro ⟨ts, hms, hname⟩ x hx hxn
      rw [hms] at hx
      simp only [collectMatchers] at hx
      cases List.mem_append.mp hx with
      | inl hts => exact absurd hxn (hname x hts)
      | inr hm => simpa using hm
  | call fn arg ih =>
      intro h x hx hxn
      exact ih h x hx hxn
  | binary op lhs rhs ihl ihr =>
      rintro ⟨hl, hr⟩ x hx hxn
      simp only [collectMatchers] at hx
      cases List.mem_append.mp hx with
      | inl h => exact ihl hl x h hxn
      | inr h => exact ihr hr x h hxn
  | lit s => intro _ x hx; cases hx

theorem enforced_mem_collect {m : Matcher} : ∀ {e : Expr},
    Enforced m e → hasVector e = true → m ∈ collectMatchers e := by
  intro e
  induction e with
  | vector metric ms =>
      rintro ⟨ts, hms, _⟩ _
      rw [hms]
      simp [collectMatchers]
  | call fn arg ih =>
      intro h hv
      exact ih h hv
  | binary op lhs rhs ihl ihr =>
      rintro ⟨hl, hr⟩ hv
      simp only [collectMatchers, List.mem_append]
      cases Bool.or_eq_true_iff.mp hv with
      | inl h => exact Or.inl (ihl hl h)
      | inr h => exact Or.inr (ihr hr h)
  | lit s => intro _ hv; cases hv

theorem collect_eq_nil_of_no_vector : ∀ {e : Expr},
    hasVector e = false → collectMatchers e = [] := by
  intro e
  induction e with
  | vector metric ms => intro h; cases h
  | call fn arg ih => intro h; exact ih h
  | binary op lhs rhs ihl ihr =>
      intro h
      simp only [hasVector, Bool.or_eq_false_iff] at h
      simp only [collectMatchers, ihl h.1, ihr h.2, List.append_nil]
  | lit s => intro _; rfl

theorem enforceNode_no_vector (m : Matcher) : ∀ {e : Expr},
    hasVector e = false → enforceNode m e = .ok e := by
  intro e
  induction e with
  | vector metric ms => intro h; cases h
  | call fn arg ih =>
      intro h
      simp only [enforceNode, ih h]
  | binary op lhs rhs ihl ihr =>
      intro h
      simp only [hasVector, Bool.or_eq_false_iff] at h
      simp only [enforceNode, ihl h.1, ihr h.2]
  | lit s => intro _; rfl

theorem enforceNode_hasVector {m : Matcher} : ∀ {e e' : Expr},
    enforceNode m e = .ok e' → hasVector e' = hasVector e := by
  intro e
  induction e with
  | vector metric ms =>
      intro e' h
      simp only [enforceNode] at h
      cases hrec : enforceMatchers m ms with
      | ok rs =>
          rw [hrec] at h
          simp only [Except.ok.injEq] at h
          rw [← h]
          rfl
      | error err => rw [hrec] at h; cases h
  | call fn arg ih =>
      intro e' h
      simp only [enforceNode] at h
      cases hrec : enforceNode m arg with
      | ok arg' =>
          rw [hrec] at h
          simp only [Except.ok.injEq] at h
          rw [← h]
          simp only [hasVector, ih hrec]
      | error err => rw [hrec] at h; cases h
  | binary op lhs rhs ihl ihr =>
      intro e' h
      simp only [enforceNode] at h
      cases hl : enforceNode m lhs with
      | ok lhs' =>
          rw [hl] at h
          cases hr : enforceNode m rhs with
          | ok rhs' =>
              rw [hr] at h
              simp only [Except.ok.injEq] at h
              rw [← h]
              simp only [hasVector, ihl hl, ihr hr]
          | error err => rw [hr] at h; cases h
      | error err => rw [hl] at h; cases h
  | lit s =>
      intro e' h
      simp only [enforceNode, Except.ok.injEq] at h
      rw [← h]

theorem collect_setMatcherTypes (f : MatchType → MatchType) : ∀ e : Expr,
    collectMatchers (setMatcherTypes f e) =
      (collectMatchers e).map fun m => { m with mtype := f m.mtype } := by
  intro e
  induction e with
  | vector metric ms => rfl
  | call fn arg ih => simpa [setMatcherTypes, collectMatchers] using ih
  | binary op lhs rhs ihl ihr =>
      simp [setMatcherTypes, collectMatchers, ihl, ihr]
  | lit s => rfl

theorem foldl_insert_map_type (f : MatchType → MatchType) (ms : List Matcher) :
    ∀ acc : List (Str × Str),
      ((ms.map fun m => { m with mtype := f m.mtype }).foldl
        (fun l m => mapInsert l m.name m.value) acc) =
      ms.foldl (fun l m => mapInsert l m.name m.value) acc := by
  induction ms with
  | nil => intro acc; rfl
  | cons x xs ih => intro acc; simpa using ih (mapInsert acc x.name x.value)

theorem extract_setMatcherTypes (f : MatchType → MatchType) (e : Expr) :
    extractLabelsAndValues (setMatcherTypes f e) = extractLabelsAndValues e := by
  unfold extractLabelsAndValues
  rw [collect_setMatcherTypes, foldl_insert_map_type]

theorem checkLabels_eq (lab : Str) (l : List (Str × Str)) (tl : List Str) :
    checkLabels lab l tl =
      match ((mapLookupZ l lab).splitOn '|').find?
          (fun q => decide (q ∉ tl)) with
      | some q => (false, [q])
      | none => (true, (mapLookupZ l lab).splitOn '|') := rfl

theorem checkLabels_of_all {lab v : Str} {l : List (Str × Str)} {tl : List Str}
    (hv : mapLookup l lab = some v)
    (hall : ∀ q ∈ v.splitOn '|', q ∈ tl) :
    checkLabels lab l tl = (true, v.splitOn '|') := by
  have hz : mapLookupZ l lab = v := by simp [mapLookupZ, hv]
  have hnone : (v.splitOn '|').find? (fun q => decide (q ∉ tl)) = none :=
    List.find?_eq_none.mpr fun q hq => by simp [hall q hq]
  rw [checkLabels_eq, hz, hnone]

theorem enforceLabels_of_all {lab v : Str} {l : List (Str × Str)}
    {tl : List Str} (hv : mapLookup l lab = some v)
    (hall : ∀ q ∈ v.splitOn '|', q ∈ tl) :
    enforceLabels lab l tl = .ok (v.splitOn '|') := by
  simp only [enforceLabels, hv, checkLabels_of_all hv hall]

theorem enforceLabels_of_offender {lab v q₀ : Str} {l : List (Str × Str)}
    {tl : List Str} (hv : mapLookup l lab = some v)
    (hq : (v.splitOn '|').find? (fun q => decide (q ∉ tl)) = some q₀) :
    enforceLabels lab l tl = .error (notAllowedMsg q₀) := by
  have hz : mapLookupZ l lab = v := by simp [mapLookupZ, hv]
  have hc : checkLabels lab l tl = (false, [q₀]) := by
    rw [checkLabels_eq, hz, hq]
  simp only [enforceLabels, hv, hc, List.headD]

theorem enforceLabels_default {lab : Str} {l : List (Str × Str)}
    {tl : List Str} (hv : mapLookup l lab = none) :
    enforceLabels lab l tl = .ok (sortStrs tl) := by
  simp only [enforceLabels, hv]
  rfl

theorem enforceLabels_ok_inv {lab : Str} {l : List (Str × Str)}
    {tl es : List Str} (h : enforceLabels lab l tl = .ok es) :
    (∀ x ∈ es, x ∈ tl) ∧ (tl ≠ [] → es ≠ []) := by
  cases hv : mapLookup l lab with
  | none =>
      rw [enforceLabels_default hv] at h
      have hes : es = sortStrs tl := (Except.ok.inj h).symm
      subst hes
      exact ⟨fun x hx => (mem_sortStrs x tl).mp hx, fun hne => sortStrs_ne_nil hne⟩
  | some v =>
      cases hfind : (v.splitOn '|').find? (fun q => decide (q ∉ tl)) with
      | some q =>
          rw [enforceLabels_of_offender hv hfind] at h
          cases h
      | none =>
          have hall : ∀ q ∈ v.splitOn '|', q ∈ tl := by
            intro q hq
            simpa using List.find?_eq_none.mp hfind q hq
          rw [enforceLabels_of_all hv hall] at h
          have hes : es = v.splitOn '|' := (Except.ok.inj h).symm
          subst hes
          exact ⟨hall, fun _ => splitOn_ne_nil '|' v⟩

theorem enforceNode_ok_of_compat {m : Matcher} : ∀ {e : Expr},
    (∀ x ∈ collectMatchers e, x.name = m.name → x = m) →
    ∃ e', enforceNode m e = .ok e' := by
  intro e
  induction e with
  | vector metric ms =>
      intro h
      simp only [collectMatchers] at h
      obtain ⟨rs, hrs⟩ := enforceMatchers_ok_of_compat h
      exact ⟨.vector metric rs, by simp [enforceNode, hrs]⟩
  | call fn arg ih =>
      intro h
      obtain ⟨arg', ha⟩ := ih fun x hx => h x hx
      exact ⟨.call fn arg', by simp [enforceNode, ha]⟩
  | binary op lhs rhs ihl ihr =>
      intro h
      obtain ⟨l', hl⟩ := ihl fun x hx => h x (List.mem_append_left _ hx)
      obtain ⟨r', hr⟩ := ihr fun x hx => h x (List.mem_append_right _ hx)
      exact ⟨.binary op l' r', by simp [enforceNode, hl, hr]⟩
  | lit s => intro _; exact ⟨.lit s, rfl⟩

/-- Claim C1, counterexample: the query `up\x7bnamespace="a|b"\x7d` carries a
tenant-label matcher whose split value Q = \x7ba, b\x7d is a subset of the
TenantSet T = \x7ba, b\x7d, yet the rewrite does not succeed: the enforcement
matcher built from Q is a regex matcher while the inbound matcher is an
equality matcher, so `EnforceNode` (constructed with `errorOnReplace = true`)
rejects the query. -/
theorem claim1_counterexample :
    mapLookup
        (extractLabelsAndValues
          (.vector upMetric [⟨nsLbl, .matchEqual, valAB⟩])) nsLbl =
      some valAB ∧
    (valAB.splitOn '|').all (fun q => decide (q ∈ [tenA, tenB])) = true ∧
    promqlEnforcer nsLbl (.vector upMetric [⟨nsLbl, .matchEqual, valAB⟩])
        [tenA, tenB] =
      .error illegalMatcherMsg := by
  decide

/-- Claim C1 (amended): for a query carrying a tenant-label matcher with
value `v`, split on the bar into Q: if every element of Q is in the
TenantSet, `enforceLabels` accepts Q as the effective tenant set, and the
full rewrite succeeds provided every inbound tenant-label matcher equals the
enforcement matcher built from Q (same type and value); when some element of
Q is missing from the TenantSet, the rewrite fails with an error naming the
first such element, so the query is never silently narrowed. -/
theorem claim1_corrected (tenantLabel v : Str) (e : Expr) (tl : List Str)
    (hv : mapLookup (extractLabelsAndValues e) tenantLabel = some v) :
    ((∀ q ∈ v.splitOn '|', q ∈ tl) →
        enforceLabels tenantLabel (extractLabelsAndValues e) tl =
          .ok (v.splitOn '|')) ∧
    ((∀ q ∈ v.splitOn '|', q ∈ tl) →
        (∀ x ∈ collectMatchers e, x.name = tenantLabel →
            x = createEnforcer tenantLabel (v.splitOn '|')) →
        ∃ e', promqlEnforcer tenantLabel e tl = .ok e') ∧
    (∀ q₀, (v.splitOn '|').find? (fun q => decide (q ∉ tl)) = some q₀ →
        promqlEnforcer tenantLabel e tl = .error (notAllowedMsg q₀)) := by
  refine ⟨fun hall => enforceLabels_of_all hv hall,
    fun hall hcompat => ?_, fun q₀ hq => ?_⟩
  · have henf := enforceLabels_of_all hv hall
    obtain ⟨e', he'⟩ :=
      @enforceNode_ok_of_compat (createEnforcer tenantLabel (v.splitOn '|'))
        e hcompat
    refine ⟨e', ?_⟩
    simp only [promqlEnforcer, henf]
    exact he'
  · have herr := enforceLabels_of_offender hv hq
    simp only [promqlEnforcer, herr]

/-- Claim C1, witness: an accepted instance (regex matcher a|b with
T = \x7ba, b\x7d) where the subset check passes and the rewrite succeeds, and
a rejected instance (value c with T = \x7ba, b\x7d) failing with the offender
c. -/
theorem claim1_witness :
    (enforceLabels nsLbl
        (extractLabelsAndValues
          (.vector upMetric [⟨nsLbl, .matchRegexp, valAB⟩])) [tenA, tenB] =
      .ok (valAB.splitOn '|')) ∧
    (∃ e', promqlEnforcer nsLbl
        (.vector upMetric [⟨nsLbl, .matchRegexp, valAB⟩]) [tenA, tenB] =
      .ok e') ∧
    promqlEnforcer nsLbl
        (.vector upMetric [⟨nsLbl, .matchEqual, ("c".toList)⟩]) [tenA, tenB] =
      .error (notAllowedMsg ("c".toList)) := by
  refine ⟨?_, ?_, ?_⟩
  · exact (claim1_corrected nsLbl valAB
      (.vector upMetric [⟨nsLbl, .matchRegexp, valAB⟩]) [tenA, tenB]
      (by decide)).1 (by decide)
  · exact (claim1_corrected nsLbl valAB
      (.vector upMetric [⟨nsLbl, .matchRegexp, valAB⟩]) [tenA, tenB]
      (by decide)).2.1 (by decide) (by decide)
  · exact (claim1_corrected nsLbl ("c".toList)
      (.vector upMetric [⟨nsLbl, .matchEqual, ("c".toList)⟩]) [tenA, tenB]
      (by decide)).2.2 ("c".toList) (by decide)

/-- Claim C2: with an empty TenantSet the pipeline rejects every query with
HTTP 403 and body "no tenants", and never forwards a rewritten query.  The
emptiness check lives in the pipeline step modelled from the spec
(`pipelineEnforce`). -/
theorem claim2_confirmed (tenantLabel : Str) (e : Expr) :
    pipelineEnforce tenantLabel e [] =
      .rejected 403 (("no tenants").toList) ∧
    ∀ q, pipelineEnforce tenantLabel e [] ≠ .forwarded q := by
  refine ⟨rfl, fun q h => ?_⟩
  simp [pipelineEnforce] at h

/-- Claim C3, evaluation at the failing input: a request under `/loki` is
wired to the LogQL enforcer but forwarded to the Thanos (metrics) upstream,
and a request under `/` is wired to the PromQL enforcer but forwarded to the
Loki (logs) upstream — the upstreams are swapped relative to the claim. -/
theorem claim3_code_evaluated :
    routeFor (("/loki/api/v1/query").toList) =
      { enf := .logql, upstream := .thanos } ∧
    routeFor (("/api/v1/query").toList) =
      { enf := .promql, upstream := .loki } ∧
    lokiRouterHandler.upstream ≠ UpstreamKind.loki ∧
    thanosRouterHandler.upstream ≠ UpstreamKind.thanos := by
  decide

/-- Claim C4, counterexample: for the inbound query
`up\x7bnamespace=~"b|a"\x7d` and TenantSet \x7ba, b\x7d the rewrite succeeds
and the emitted regex matcher keeps the inbound order b|a, which differs from
the lexicographically sorted join a|b the claim requires. -/
theorem claim4_counterexample :
    promqlEnforcer nsLbl (.vector upMetric [⟨nsLbl, .matchRegexp, valBA⟩])
        [tenA, tenB] =
      .ok (.vector upMetric [⟨nsLbl, .matchRegexp, valBA⟩]) ∧
    List.intercalate ['|'] (sortStrs [tenB, tenA]) = valAB ∧
    valBA ≠ valAB := by
  decide

/-- Claim C4 (amended): the rewriter is deterministic (equal query AST and
equal TenantSet give equal output bytes); the enforcement matcher joins the
effective tenant list with the bar in the order of that list — with more than
one member as a regex matcher, otherwise as an equality matcher; on the
default path (no inbound tenant matcher) the effective list is the
lexicographically sorted TenantSet, while on the inbound-matcher path it is
the split of the inbound value in inbound order, without sorting. -/
theorem claim4_corrected (tenantLabel : Str) (e : Expr) (tl : List Str) :
    (∀ e₂ tl₂, e = e₂ → tl = tl₂ →
        promqlEnforcerStr tenantLabel e tl =
          promqlEnforcerStr tenantLabel e₂ tl₂) ∧
    (∀ es, createEnforcer tenantLabel es =
        { name := tenantLabel
          mtype := if es.length > 1 then .matchRegexp else .matchEqual
          value := List.intercalate ['|'] es }) ∧
    (mapLookup (extractLabelsAndValues e) tenantLabel = none →
        enforceLabels tenantLabel (extractLabelsAndValues e) tl =
          .ok (sortStrs tl)) ∧
    (∀ v, mapLookup (extractLabelsAndValues e) tenantLabel = some v →
        ∀ es, enforceLabels tenantLabel (extractLabelsAndValues e) tl =
            .ok es →
          es = v.splitOn '|') := by
  refine ⟨fun e₂ tl₂ he ht => by rw [he, ht], fun es => rfl,
    fun hnone => enforceLabels_default hnone, fun v hv es hes => ?_⟩
  cases hfind : (v.splitOn '|').find? (fun q => decide (q ∉ tl)) with
  | some q =>
      rw [enforceLabels_of_offender hv hfind] at hes
      cases hes
  | none =>
      have hall : ∀ q ∈ v.splitOn '|', q ∈ tl := by
        intro q hq
        simpa using List.find?_eq_none.mp hfind q hq
      rw [enforceLabels_of_all hv hall] at hes
      exact (Except.ok.inj hes).symm

/-- Claim C4, witness: the determinism conjunct and the sorted default path
at a concrete input (TenantSet given in the order b, a; effective list comes
out sorted as a, b). -/
theorem claim4_witness :
    promqlEnforcerStr nsLbl (.vector upMetric []) [tenB, tenA] =
      promqlEnforcerStr nsLbl (.vector upMetric []) [tenB, tenA] ∧
    enforceLabels nsLbl (extractLabelsAndValues (.vector upMetric []))
        [tenB, tenA] =
      .ok (sortStrs [tenB, tenA]) ∧
    sortStrs [tenB, tenA] = [tenA, tenB] := by
  refine ⟨(claim4_corrected nsLbl (.vector upMetric []) [tenB, tenA]).1
      _ _ rfl rfl,
    (claim4_corrected nsLbl (.vector upMetric []) [tenB, tenA]).2.2.1
      (by decide), by decide⟩

/-- Claim C5, counterexample: with TenantSet \x7b"a|b"\x7d (a tenant id that
contains a bar) and query `up`, the first rewrite succeeds and emits
`namespace="a|b"`; rewriting that output again with the same TenantSet splits
the value back into a and b, neither of which is a member, so the second
rewrite fails instead of reproducing the first output. -/
theorem claim5_counterexample :
    promqlEnforcer nsLbl (.vector upMetric []) [valAB] =
      .ok (.vector upMetric [⟨nsLbl, .matchEqual, valAB⟩]) ∧
    promqlEnforcer nsLbl (.vector upMetric [⟨nsLbl, .matchEqual, valAB⟩])
        [valAB] =
      .error (notAllowedMsg tenA) := by
  decide

/-- Claim C5 (amended): the rewrite is idempotent provided the TenantSet is
nonempty and no tenant id contains a bar: whenever the rewrite succeeds,
rewriting its output again with the same TenantSet returns that output
unchanged. -/
theorem claim5_corrected (tenantLabel : Str) (tl : List Str) (e e' : Expr)
    (hne : tl ≠ []) (hpipe : ∀ t ∈ tl, '|' ∉ t)
    (h : promqlEnforcer tenantLabel e tl = .ok e') :
    promqlEnforcer tenantLabel e' tl = .ok e' := by
  cases henf : enforceLabels tenantLabel (extractLabelsAndValues e) tl with
  | error err =>
      unfold promqlEnforcer at h
      rw [henf] at h
      cases h
  | ok es =>
      have h' : enforceNode (createEnforcer tenantLabel es) e = .ok e' := by
        unfold promqlEnforcer at h
        rw [henf] at h
        exact h
      obtain ⟨hesmem, hesne'⟩ := enforceLabels_ok_inv henf
      have hesne : es ≠ [] := hesne' hne
      have hespipe : ∀ x ∈ es, '|' ∉ x := fun x hx => hpipe x (hesmem x hx)
      by_cases hv : hasVector e = true
      · have hv' : hasVector e' = true := by
          rw [enforceNode_hasVector h']
          exact hv
        have hEnf : Enforced (createEnforcer tenantLabel es) e' :=
          enforceNode_ok_enforced h'
        have hmem : createEnforcer tenantLabel es ∈ collectMatchers e' :=
          enforced_mem_collect hEnf hv'
        have hall : ∀ x ∈ collectMatchers e',
            x.name = tenantLabel → x = createEnforcer tenantLabel es :=
          fun x hx hxn => enforced_collect hEnf x hx hxn
        have hlast : lastVal tenantLabel (collectMatchers e') =
            some (List.intercalate ['|'] es) := by
          apply lastVal_eq_some
          · intro x hx hxn
            rw [hall x hx hxn]
            rfl
          · exact ⟨createEnforcer tenantLabel es, hmem, rfl⟩
        have hlook : mapLookup (extractLabelsAndValues e') tenantLabel =
            some (List.intercalate ['|'] es) := by
          rw [mapLookup_extract]
          exact hlast
        have hsplit : (List.intercalate ['|'] es).splitOn '|' = es :=
          List.splitOn_intercalate es '|' hespipe hesne
        have hall2 : ∀ q ∈ (List.intercalate ['|'] es).splitOn '|', q ∈ tl := by
          rw [hsplit]
          exact hesmem
        have henf2 : enforceLabels tenantLabel (extractLabelsAndValues e') tl =
            .ok es := by
          rw [enforceLabels_of_all hlook hall2, hsplit]
        unfold promqlEnforcer
        rw [henf2]
        exact enforceNode_of_enforced hEnf
      · have hfv : hasVector e = false := by
          cases hvv : hasVector e
          · rfl
          · exact absurd hvv hv
        have hid : enforceNode (createEnforcer tenantLabel es) e = .ok e :=
          enforceNode_no_vector _ hfv
        have hee : e = e' := by
          rw [hid] at h'
          exact Except.ok.inj h'
        rw [← hee]
        unfold promqlEnforcer
        rw [henf]
        exact hid

/-- Claim C5, witness: with TenantSet \x7ba, b\x7d (bar-free, nonempty) and
query `up`, the first rewrite emits `namespace=~"a|b"` and the second rewrite
reproduces it byte for byte. -/
theorem claim5_witness :
    promqlEnforcer nsLbl (.vector upMetric []) [tenA, tenB] =
      .ok (.vector upMetric [⟨nsLbl, .matchRegexp, valAB⟩]) ∧
    promqlEnforcer nsLbl (.vector upMetric [⟨nsLbl, .matchRegexp, valAB⟩])
        [tenA, tenB] =
      .ok (.vector upMetric [⟨nsLbl, .matchRegexp, valAB⟩]) := by
  refine ⟨by decide, ?_⟩
  exact claim5_corrected nsLbl [tenA, tenB] (.vector upMetric [])
    (.vector upMetric [⟨nsLbl, .matchRegexp, valAB⟩]) (by decide) (by decide)
    (by decide)

/-- Claim C6, evaluation at the failing inputs: a request without an
Authorization header and a request with an invalid bearer are both answered
with HTTP 403 (the code writes `http.StatusForbidden`), not the 401 the claim
— and the code's own comment at src/main.go:86 — states; both rejections
happen for every possible upstream outcome, i.e. before any forwarding. -/
theorem claim6_code_evaluated :
    (∀ tv up, configureProxy [] tv up =
        .response 403 (("No Authorization header found").toList)) ∧
    (∀ up, configureProxy (("Bearer abc").toList) false up =
        .response 403 (("error while parsing token").toList)) ∧
    (403 : Nat) ≠ 401 := by
  refine ⟨fun tv up => rfl, fun up => rfl, by decide⟩

/-- Claim C7, counterexample: for an upstream response with status 503 and a
header, the client receives status 200 with only the body copied — the
upstream status code and headers are not propagated, contradicting the
claim that the response is returned unchanged. -/
theorem claim7_counterexample :
    configureProxy (("Bearer abc").toList) true
        (.ok { status := 503
               headers := [(("X-Hdr").toList, ("v").toList)]
               body := ("oops").toList }) =
      .response 200 (("oops").toList) ∧
    (200 : Nat) ≠ 503 := by
  decide

/-- Claim C7 (amended): for every upstream response received, the proxy
answers the client with HTTP 200 and the upstream body bytes; the upstream
status code and headers are dropped. -/
theorem claim7_corrected (auth : Str) (resp : UpstreamResponse)
    (h7 : 7 ≤ auth.length) :
    configureProxy auth true (.ok resp) = .response 200 resp.body := by
  have hne : auth ≠ [] := by
    intro hnil
    rw [hnil] at h7
    simp at h7
  have hlt : ¬auth.length < 7 := by omega
  simp [configureProxy, hne, hlt]

/-- Claim C7, witness: a concrete 503 upstream response is returned to the
client as 200 with its body. -/
theorem claim7_witness :
    configureProxy (("Bearer abc").toList) true
        (.ok { status := 503, headers := [], body := ("oops").toList }) =
      .response 200 (("oops").toList) :=
  claim7_corrected (("Bearer abc").toList)
    { status := 503, headers := [], body := ("oops").toList } (by decide)

/-- Claim C8, counterexample: when the upstream round trip fails the handler
answers HTTP 500 (`http.StatusInternalServerError`) with the error text —
not the 502 the claim requires, and timeouts take the same branch, so 504 is
never produced either. -/
theorem claim8_counterexample :
    configureProxy (("Bearer abc").toList) true
        (.error (("connection refused").toList)) =
      .response 500 (("connection refused").toList) ∧
    (500 : Nat) ≠ 502 ∧ (500 : Nat) ≠ 504 := by
  decide

/-- Claim C8 (amended): every failed upstream round trip — unreachable
upstream and timeout alike — is answered with HTTP 500 and the error text. -/
theorem claim8_corrected (auth err : Str) (h7 : 7 ≤ auth.length) :
    configureProxy auth true (.error err) = .response 500 err := by
  have hne : auth ≠ [] := by
    intro hnil
    rw [hnil] at h7
    simp at h7
  have hlt : ¬auth.length < 7 := by omega
  simp [configureProxy, hne, hlt]

/-- Claim C8, witness: a concrete failed round trip yields 500 with the
error text. -/
theorem claim8_witness :
    configureProxy (("Bearer abc").toList) true
        (.error (("connection refused").toList)) =
      .response 500 (("connection refused").toList) :=
  claim8_corrected (("Bearer abc").toList) (("connection refused").toList)
    (by decide)

/-- Claim C9: the subset check ignores the matcher type — replacing every
matcher's type pointwise changes neither the extracted label map nor
`checkLabels` nor `enforceLabels` — and the extracted map keeps, for each
label name, exactly the value of the last matcher visited. -/
theorem claim9_confirmed (f : MatchType → MatchType) (e : Expr)
    (tenantLabel k : Str) (tl : List Str) :
    extractLabelsAndValues (setMatcherTypes f e) = extractLabelsAndValues e ∧
    checkLabels tenantLabel (extractLabelsAndValues (setMatcherTypes f e))
        tl =
      checkLabels tenantLabel (extractLabelsAndValues e) tl ∧
    enforceLabels tenantLabel (extractLabelsAndValues (setMatcherTypes f e))
        tl =
      enforceLabels tenantLabel (extractLabelsAndValues e) tl ∧
    mapLookup (extractLabelsAndValues e) k =
      ((collectMatchers e).reverse.find? (fun x => decide (x.name = k))).map
        Matcher.value := by
  have h1 := extract_setMatcherTypes f e
  refine ⟨h1, by rw [h1], by rw [h1], ?_⟩
  rw [mapLookup_extract, lastVal_eq_find?_reverse]

/-- Claim C10: any request whose Authorization header is present but shorter
than 7 characters makes the handler panic (the bearer-extraction slice
`header[7:]` of src/main.go:83 is out of range) instead of returning an
error response. -/
theorem claim10_confirmed (auth : Str) (tv : Bool)
    (up : Except Str UpstreamResponse) (hne : auth ≠ [])
    (hlen : auth.length < 7) :
    configureProxy auth tv up = .panicked := by
  simp [configureProxy, hne, hlen]

/-- Claim C10, witness: the header value Basic (5 characters) panics the
handler. -/
theorem claim10_witness :
    configureProxy (("Basic").toList) true (.error []) = .panicked :=
  claim10_confirmed (("Basic").toList) true (.error []) (by decide) (by decide)

end NamespaceProxy
